import Mathlib

/-!
Verification development for the LA-LODES-Map repository.

The Lean definitions below are shallow embeddings of the Python sources:
  - src/lodes_unified_map.py  (sector table, ZCTA spatial join, boundary merge,
    block centroid jitter, crosswalk loader)
  - src/lodes_choropleth.py   (tract aggregation, location quotients,
    concentration, tract boundary merge)
  - src/lodes_map.py          (global seed-42 positional jitter, block
    concentration with replace(0, NaN))

Numeric conventions: LODES counts are integers (pandas int64), embedded as ℕ.
Float results of pandas division are embedded as `PFloat` (a finite rational,
+inf, -inf, or NaN) with IEEE-754 division semantics for the cases the code
reaches; coordinates and distances are ℚ.  Presentation-only rounding
(`round(x, k)`, `* 100`) is omitted where a claim concerns key presence or
NaN-ness, since rounding preserves both (`round(nan, k) = nan`).
-/

namespace LodesMap

/-- The 20 NAICS sector names, in the fixed enumeration order CNS01..CNS20 of
the `SECTORS` dict (src/lodes_unified_map.py lines 16-37, identical in
src/lodes_choropleth.py). -/
def sectorNames : List String :=
  ["Agriculture", "Mining", "Utilities", "Construction", "Manufacturing",
   "Wholesale Trade", "Retail Trade", "Transportation", "Information",
   "Finance", "Real Estate", "Professional Services", "Management",
   "Admin Support", "Education", "Healthcare", "Arts/Entertainment",
   "Accommodation/Food", "Other Services", "Public Admin"]

/-- Name of sector `i` (CNS01 is index 0, ..., CNS20 is index 19). -/
def sectorName (i : Fin 20) : String := sectorNames.getD i.val "Unknown"

/-- Model of a pandas/numpy float64 cell: a finite rational, an infinity, or
NaN.  Counts are exact integers in the sources; floats arise only through
division, so this is the codomain of the embedded divisions. -/
inductive PFloat where
  | val : ℚ → PFloat
  | pinf : PFloat
  | ninf : PFloat
  | nan : PFloat
deriving DecidableEq

/-- IEEE-754 division as performed by numpy float64 (warnings are suppressed
in all three scripts, so 1/0 = inf, 0/0 = NaN, NaN propagates). -/
def pdiv : PFloat → PFloat → PFloat
  | .val a, .val b =>
      if b ≠ 0 then .val (a / b)
      else if 0 < a then .pinf
      else if a < 0 then .ninf
      else .nan
  | .nan, _ => .nan
  | _, .nan => .nan
  | .val _, .pinf => .val 0
  | .val _, .ninf => .val 0
  | .pinf, .val b => if 0 ≤ b then .pinf else .ninf
  | .ninf, .val b => if 0 ≤ b then .ninf else .pinf
  | .pinf, .pinf => .nan
  | .pinf, .ninf => .nan
  | .ninf, .pinf => .nan
  | .ninf, .ninf => .nan

/-! ### Dominant sector (pandas idxmax / Python max over dict)

`tract_df[cns_cols].idxmax(axis=1)` (src/lodes_choropleth.py line 64,
src/lodes_unified_map.py lines 89 and 104) scans the 20 CNS columns left to
right and returns the first column attaining the maximum.
`max(sector_jobs, key=sector_jobs.get)` (src/lodes_unified_map.py line 402)
iterates the dict in insertion order CNS01..CNS20 and likewise keeps the
first maximum.  Both are the following scan with the first column as the
initial best. -/


/-- Left-to-right scan keeping the first strict maximum seen so far. -/
def scanMax (counts : Fin 20 → ℕ) : List (Fin 20) → Fin 20 → Fin 20
  | [], best => best
  | i :: l, best => scanMax counts l (if counts best < counts i then i else best)

/-- The sector indices after CNS01, in enumeration order. -/
def laterSectors : List (Fin 20) := (List.finRange 20).drop 1

/-- Dominant sector of a row of 20 sector counts: idxmax semantics
(first index attaining the maximum, scanning CNS01..CNS20). -/
def dominantCns (counts : Fin 20 → ℕ) : Fin 20 :=
  scanMax counts laterSectors ⟨0, by omega⟩

/-- Row maximum of the 20 sector counts (`.max(axis=1)` /
`sector_jobs[dominant_cns]`). -/
def rowMax (counts : Fin 20 → ℕ) : ℕ :=
  laterSectors.foldl (fun m i => max m (counts i)) (counts ⟨0, by omega⟩)

/-! ### Sector aggregation (pandas groupby(...).sum())

`df.groupby('tract')[agg_cols].sum()` (src/lodes_choropleth.py line 58,
src/lodes_unified_map.py line 100) groups the raw block rows by tract key and
sums the integer reference total `C000` and each of the 20 CNS columns.  The
embedding realises the groupby as a left fold inserting each raw row into an
association table keyed by the group key; pandas integer sums are exact. -/


/-- A raw LODES block row restricted to the columns the aggregation uses:
the group key (tract id), the reference total `C000`, and the 20 CNS sector
counts. -/
structure Row where
  key : String
  total : ℕ
  counts : Fin 20 → ℕ

/-- Insert one raw row into the aggregation table: add its total and sector
counts into the entry for its key, or open a new entry. -/
def bump : List Row → Row → List Row
  | [], r => [⟨r.key, r.total, r.counts⟩]
  | g :: gs, r =>
      if g.key = r.key then
        ⟨g.key, g.total + r.total, fun s => g.counts s + r.counts s⟩ :: gs
      else
        g :: bump gs r

/-- The groupby-sum aggregation: one output row per distinct key. -/
def aggregate (rows : List Row) : List Row := rows.foldl bump []

/-- Look up the aggregated total and sector counts for a key. -/
def lookupAgg (k : String) : List Row → Option (ℕ × (Fin 20 → ℕ))
  | [] => none
  | g :: gs => if g.key = k then some (g.total, g.counts) else lookupAgg k gs

/-- Accumulate a list of rows into an optional running (total, counts) pair. -/
def addInto : Option (ℕ × (Fin 20 → ℕ)) → List Row → Option (ℕ × (Fin 20 → ℕ))
  | acc, [] => acc
  | none, r :: rs => addInto (some (r.total, r.counts)) rs
  | some (t, c), r :: rs => addInto (some (t + r.total, fun s => c s + r.counts s)) rs

/-- Concentration on the tract aggregation path
(src/lodes_choropleth.py line 66: `dominant_jobs / total_jobs`, a bare numpy
float division with no zero replacement). -/
def concentrationChoropleth (g : Row) : PFloat :=
  pdiv (.val (rowMax g.counts)) (.val g.total)

/-- Concentration on the block path (src/lodes_map.py line 120:
`dominant_jobs / total_jobs.replace(0, np.nan)`). -/
def sectorConcentrationBlocks (dj t : ℕ) : PFloat :=
  pdiv (.val dj) (if t = 0 then .nan else .val t)

/-! ### Location quotients

Tract path (src/lodes_choropleth.py lines 78-82, identical in
src/lodes_unified_map.py lines 109-113):
`county_share = county_totals[cns] / county_totals['total_jobs']` (bare float
division), `share = tract[cns] / tract['total_jobs'].replace(0, np.nan)`,
`lq = share / county_share`.

ZCTA path (src/lodes_unified_map.py lines 398-413 and 427-429): location
quotients are computed only for ZCTAs with `total_jobs > 0`, with
`county_share = county[cns] / county_total if county_total > 0 else 0` and
`lq = zcta_share / county_share if county_share > 0 else 0`; features whose
ZCTA has a zero total read the missing key through `data.get(f'{cns}_lq', 0)`
and so expose 0. -/


/-- Reference sector share on the tract path (bare division). -/
def tractCountyShare (ccns ctotal : ℕ) : PFloat :=
  pdiv (.val ccns) (.val ctotal)

/-- Unit sector share on the tract path (`replace(0, np.nan)` on the
denominator). -/
def tractSectorShare (cns total : ℕ) : PFloat :=
  pdiv (.val cns) (if total = 0 then .nan else .val total)

/-- Location quotient on the tract path. -/
def tractLq (cns total ccns ctotal : ℕ) : PFloat :=
  pdiv (tractSectorShare cns total) (tractCountyShare ccns ctotal)

/-- Reference sector share on the ZCTA path (guarded, exact rational). -/
def zctaCountyShare (ccns ctotal : ℕ) : ℚ :=
  if 0 < ctotal then (ccns : ℚ) / ctotal else 0

/-- Location quotient on the ZCTA path, as computed for a ZCTA with positive
total. -/
def zctaLq (cns total ccns ctotal : ℕ) : ℚ :=
  if 0 < zctaCountyShare ccns ctotal then
    ((cns : ℚ) / total) / zctaCountyShare ccns ctotal
  else 0

/-- The `{name}_lq` property value a ZCTA feature exposes: the computed LQ
when its total is positive, otherwise the `.get(..., 0)` default. -/
def zctaLqProperty (cns total ccns ctotal : ℕ) : ℚ :=
  if 0 < total then zctaLq cns total ccns ctotal else 0

/-! ### Approximate tract-to-ZCTA spatial join

src/lodes_unified_map.py lines 330-391.  Each ZCTA boundary feature yields a
bounding box and vertex-mean center (`zcta_bounds`); each tract centroid is
then assigned by two passes: first the nearest-center ZCTA among those whose
bounding box contains the centroid (strict `dist < best_dist` updates, so the
first of tied nearest candidates wins), then, if none contains it, the
nearest center over all ZCTAs.  The result is recorded only under
`if best_zcta:` — Python falsiness, so an empty-string id is dropped. -/


/-- Bounding box and vertex-mean center of one ZCTA boundary feature
(the `zcta_bounds[zcta]` dict, src/lodes_unified_map.py lines 346-350). -/
structure ZBounds where
  minLon : ℚ
  maxLon : ℚ
  minLat : ℚ
  maxLat : ℚ
  cLon : ℚ
  cLat : ℚ
deriving DecidableEq

/-- Point-in-bounding-box test (inclusive on all four sides, lines 360-361). -/
def inBbox (lon lat : ℚ) (b : ZBounds) : Bool :=
  decide (b.minLon ≤ lon ∧ lon ≤ b.maxLon ∧ b.minLat ≤ lat ∧ lat ≤ b.maxLat)

/-- Squared Euclidean distance in (lon, lat) space to a ZCTA center
(line 363: `(lon - center_lon)**2 + (lat - center_lat)**2`). -/
def sqDist (lon lat : ℚ) (b : ZBounds) : ℚ :=
  (lon - b.cLon) ^ 2 + (lat - b.cLat) ^ 2

/-- `dist < best_dist` against the running best (distance `none` is the
initial `float('inf')`). -/
def better (d : ℚ) : Option (String × ℚ) → Bool
  | none => true
  | some (_, bd) => decide (d < bd)

/-- One scan of the ZCTA table keeping the nearest center among entries
accepted by `keep`, with strict improvement (first of ties wins).
Instantiated with `keep = inBbox` it is the containment pass (lines 358-366)
and with `keep = fun _ => true` the fallback pass (lines 369-374). -/
def bestScan (lon lat : ℚ) (keep : ZBounds → Bool) :
    List (String × ZBounds) → Option (String × ℚ) → Option (String × ℚ)
  | [], best => best
  | p :: rest, best =>
      bestScan lon lat keep rest
        (if keep p.2 && better (sqDist lon lat p.2) best then
          some (p.1, sqDist lon lat p.2)
        else best)

/-- Assignment of one tract centroid to a ZCTA (lines 352-377): containment
pass, fallback pass if nothing contained the point, and the Python-falsy
guard `if best_zcta:` on the resulting id. -/
def assignTract (lon lat : ℚ) (zctas : List (String × ZBounds)) : Option String :=
  let r1 := bestScan lon lat (inBbox lon lat) zctas none
  let r := match r1 with
    | some p => some p
    | none => bestScan lon lat (fun _ => true) zctas none
  match r with
  | some (z, _) => if z = "" then none else some z
  | none => none

/-- The whole `tract_to_zcta` table (lines 353-377): one entry per tract
centroid whose assignment survives the falsy-id guard. -/
def tractToZcta (centroids : List (String × ℚ × ℚ))
    (zctas : List (String × ZBounds)) : List (String × String) :=
  centroids.filterMap (fun c =>
    (assignTract c.2.1 c.2.2 zctas).map (fun z => (c.1, z)))

/-- One step of the ZCTA accumulation dict (src/lodes_unified_map.py lines
380-391): add value `v` into the entry for ZCTA `z`, opening it (initialised
to 0, then incremented) if absent.  The Python code accumulates
`total_jobs` and each CNS column this way; `addTotal` is the per-field
operation. -/
def addTotal (z : String) (v : ℕ) : List (String × ℕ) → List (String × ℕ)
  | [] => [(z, v)]
  | (z2, w) :: rest =>
      if z2 = z then (z2, w + v) :: rest else (z2, w) :: addTotal z v rest

/-- Accumulate one numeric field over the assignment table: for each
`(tract, zcta)` pair, a tract present in `tract_lookup` (modelled by
`field : tract id → Option value`) contributes its value to its ZCTA's
entry; absent tracts are skipped (`if tract_id in tract_lookup`). -/
def zctaAccumulate (assignments : List (String × String))
    (field : String → Option ℕ) : List (String × ℕ) :=
  assignments.foldl
    (fun acc p =>
      match field p.1 with
      | some v => addTotal p.2 v acc
      | none => acc) []

/-- `download_zcta_crosswalk` (src/lodes_unified_map.py lines 60-76): returns
the cached tract-to-ZCTA crosswalk when the cache file exists; otherwise the
build branch is unimplemented and ends in `return None`.  The cache state is
the explicit argument. -/
def download_zcta_crosswalk (cached : Option (List (String × String))) :
    Option (List (String × String)) :=
  cached

/-- The ZIP correspondence step of one pipeline run
(`merge_data_with_boundaries`, src/lodes_unified_map.py lines 324-391, the
only resolution step `main` invokes): the tract-to-ZCTA table is produced by
the approximate spatial join over the ZCTA boundary table.
`download_zcta_crosswalk` is never called anywhere in the pipeline, so the
crosswalk cache, though part of the run's environment, is unused. -/
def resolverRun (_crosswalkCache : Option (List (String × String)))
    (centroids : List (String × ℚ × ℚ))
    (zctas : List (String × ZBounds)) : List (String × String) :=
  tractToZcta centroids zctas

/-! ### Boundary merge (feature properties)

src/lodes_unified_map.py lines 285-322 (tract features) and 415-434 (ZCTA
features); src/lodes_choropleth.py lines 124-148 is the same shape as the
tract branch.  A feature's properties are a Python dict; we embed them as an
association list with dict-assignment semantics (replace in place if the key
exists, else append).  A matched feature receives `total_jobs`,
`dominant_sector`, `sector_color`, `concentration`, and `{name}_jobs` /
`{name}_lq` for all 20 sectors; an unmatched feature receives only the four
defaults. -/


/-- A feature property value: int, string, or float cell. -/
inductive PropVal where
  | int : ℤ → PropVal
  | str : String → PropVal
  | num : PFloat → PropVal
deriving DecidableEq

/-- Feature properties as an ordered association list (Python dict). -/
abbrev Props := List (String × PropVal)

/-- Python dict assignment `props[k] = v`. -/
def setProp (ps : Props) (k : String) (v : PropVal) : Props :=
  if ps.any (fun p => decide (p.1 = k)) then
    ps.map (fun p => if p.1 = k then (k, v) else p)
  else ps ++ [(k, v)]

/-- Python dict lookup (first entry with the key; entries are unique when
built by `setProp`). -/
def lookupProp (k : String) : Props → Option PropVal
  | [] => none
  | p :: ps => if p.1 = k then some p.2 else lookupProp k ps

/-- One row of `tract_lookup = tract_df.set_index('tract').to_dict('index')`
restricted to the fields the merge copies (src/lodes_unified_map.py lines
307-317): the total, the dominant-sector name and color, the concentration,
and the 20 sector counts and location quotients. -/
structure TractData where
  total_jobs : ℕ
  dominant_sector : String
  sector_color : String
  concentration : PFloat
  counts : Fin 20 → ℕ
  lqs : Fin 20 → PFloat

/-- Identifier compatibility rule (line 293 / choropleth line 132): a GEOID
longer than 11 characters is truncated to the 11-character tract id. -/
def tidOf (geoid : String) : String :=
  if geoid.length > 11 then geoid.take 11 else geoid

/-- The per-sector property assignments of the matched branch (lines
314-317): `{name}_jobs` and `{name}_lq` for one sector. -/
def sectorStep (d : TractData) (acc : Props) (i : Fin 20) : Props :=
  setProp (setProp acc (sectorName i ++ "_jobs") (.int (d.counts i)))
    (sectorName i ++ "_lq") (.num (d.lqs i))

/-- The full per-sector loop `for cns, ... in SECTORS.items()` of the matched
branch; the `if cns in data` guard always holds since the aggregated tract
row carries every CNS column. -/
def setSectorProps (d : TractData) (ps : Props) : Props :=
  (List.finRange 20).foldl (sectorStep d) ps

/-- The boundary merge for one feature (src/lodes_unified_map.py lines
307-322): matched features receive the full metric set, unmatched features
only the four defaults.  Rounding and the 100 scale on `concentration` are
presentation-only and omitted (they do not affect key presence). -/
def mergeTractFeature (lookup : String → Option TractData) (geoid : String)
    (ps : Props) : Props :=
  match lookup (tidOf geoid) with
  | some d =>
      setSectorProps d
        (setProp (setProp (setProp (setProp ps
          "total_jobs" (.int d.total_jobs))
          "dominant_sector" (.str d.dominant_sector))
          "sector_color" (.str d.sector_color))
          "concentration" (.num d.concentration))
  | none =>
      setProp (setProp (setProp (setProp ps
        "total_jobs" (.int 0))
        "dominant_sector" (.str "None"))
        "sector_color" (.str "#333"))
        "concentration" (.int 0)

/-- The four keys every feature receives. -/
def baseKeys : List String :=
  ["total_jobs", "dominant_sector", "sector_color", "concentration"]

/-- The fixed metric schema of claim C2: the four base keys plus `{name}_jobs`
and `{name}_lq` for each of the 20 sectors. -/
def schemaKeys : List String :=
  baseKeys ++
    (List.finRange 20).flatMap (fun i =>
      [sectorName i ++ "_jobs", sectorName i ++ "_lq"])

/-! ### Block jitter

src/lodes_map.py lines 146-149 (`get_block_coordinates`): one global
`np.random.seed(42)`, then `lat = LATITUDE + uniform(-0.002, 0.002, len(df))`
and `lon = LONGITUDE + uniform(-0.002, 0.002, len(df))` are assigned
positionally: the row at index i consumes draw i for lat and draw
(len(df) + i) for lon of the single seed-42 stream.  `stream` is the model
of that draw sequence; the jitter a block receives therefore depends on its
row position and on the number of rows, not on the block id.

src/lodes_unified_map.py lines 258-272 (`download_block_centroids`): per
block, `np.random.seed(hash(row['block']) % 2**32)` followed by two
`uniform(-0.005, 0.005)` draws.  `pyHash` models Python's built-in string
hash — a salted (per-process, PYTHONHASHSEED) function, so it is an argument
of the run, not a constant — and `draw s` the first two uniform draws after
seeding with s. -/


/-- Embedding of `get_block_coordinates`: each `(block, tract)` row receives
`(LATITUDE + stream i, LONGITUDE + stream (n + i))`, with `none` when the
tract centroid is unknown (the `how='left'` merge leaves NaN). -/
def getBlockCoordinates (stream : ℕ → ℚ) (cent : String → Option (ℚ × ℚ))
    (blocks : List (String × String)) : List (String × Option (ℚ × ℚ)) :=
  blocks.enum.map (fun e =>
    (e.2.1, (cent e.2.2).map (fun c =>
      (c.1 + stream e.1, c.2 + stream (blocks.length + e.1)))))

/-- Embedding of `download_block_centroids`: per block, the jitter is drawn
from the seed `pyHash block % 2^32`; blocks without a tract centroid yield no
point. -/
def downloadBlockCentroids (pyHash : String → ℕ) (draw : ℕ → ℚ × ℚ)
    (cent : String → Option (ℚ × ℚ)) (blocks : List (String × String)) :
    List (String × ℚ × ℚ) :=
  blocks.filterMap (fun b =>
    (cent b.2).map (fun c =>
      (b.1, c.1 + (draw (pyHash b.1 % 2 ^ 32)).1,
        c.2 + (draw (pyHash b.1 % 2 ^ 32)).2)))

/-! ### MultiPolygon vertex sets for the spatial join

ZCTA branch (src/lodes_unified_map.py lines 332-350): for a MultiPolygon,
`all_coords = [c for poly in coords for ring in poly for c in ring]` — every
vertex of every ring of every part — and the bounding box and center are the
min/max and arithmetic mean over that whole set.

Tract branch (lines 295-305): for a MultiPolygon the centroid uses
`max(coords, key=lambda x: len(x[0]))[0]` — only the exterior ring of the
part with the most exterior vertices (first among ties). -/


/-- The ZCTA branch's vertex set: all rings of all parts flattened. -/
def allVerts (mp : List (List (List (ℚ × ℚ)))) : List (ℚ × ℚ) :=
  mp.flatMap (fun poly => poly.flatMap (fun ring => ring))

/-- Python `max(coords, key=lambda x: len(x[0]))`: first part with the
longest exterior ring. -/
def largestPartScan :
    List (List (List (ℚ × ℚ))) → List (List (ℚ × ℚ)) → List (List (ℚ × ℚ))
  | [], best => best
  | p :: rest, best =>
      largestPartScan rest
        (if (best.headD []).length < (p.headD []).length then p else best)

/-- The tract branch's vertex set: the exterior ring of the largest part. -/
def largestPartExterior (mp : List (List (List (ℚ × ℚ)))) : List (ℚ × ℚ) :=
  match mp with
  | [] => []
  | p :: ps => (largestPartScan ps p).headD []

/-- min over a python `min(lons)`-style nonempty list, first element as
start. -/
def foldMin (x : ℚ) (l : List ℚ) : ℚ := l.foldl min x

/-- max over a python `max(lons)`-style nonempty list. -/
def foldMax (x : ℚ) (l : List ℚ) : ℚ := l.foldl max x

/-- Bounding box and vertex-mean center of a vertex list (lines 343-350);
`none` when there are no vertices (the `if all_coords:` guard). -/
def boundsOf (pts : List (ℚ × ℚ)) : Option ZBounds :=
  match pts with
  | [] => none
  | p :: rest =>
      some ⟨foldMin p.1 (rest.map Prod.fst), foldMax p.1 (rest.map Prod.fst),
        foldMin p.2 (rest.map Prod.snd), foldMax p.2 (rest.map Prod.snd),
        ((p :: rest).map Prod.fst).sum / (p :: rest).length,
        ((p :: rest).map Prod.snd).sum / (p :: rest).length⟩

/-- The bounds the spatial join uses for a MultiPolygon ZCTA feature:
computed over all parts' vertices. -/
def zctaBoundsOfMP (mp : List (List (List (ℚ × ℚ)))) : Option ZBounds :=
  boundsOf (allVerts mp)

/-- A two-part MultiPolygon: part one has 3 exterior vertices near the
origin, part two has 2 vertices near (5, 5)-(6, 5). -/
def c7mp : List (List (List (ℚ × ℚ))) :=
  [[[(0, 0), (1, 0), (1, 1)]], [[(5, 5), (6, 5)]]]

/-! ### Theorems -/

/-- Invariant of the first-maximum scan: if every index outside the remaining
list (other than the current best) has a count at most the best, strictly so
for indices before the best, then the final result is a maximum and every
earlier index has a strictly smaller count. -/
theorem scanMax_spec (counts : Fin 20 → ℕ) :
    ∀ (l : List (Fin 20)) (b : Fin 20),
      l.Pairwise (· < ·) →
      (∀ k ∈ l, b < k) →
      (∀ j : Fin 20, j ∉ l → j ≠ b →
        counts j ≤ counts b ∧ (j < b → counts j < counts b)) →
      ∀ j : Fin 20, j ≠ scanMax counts l b →
        counts j ≤ counts (scanMax counts l b) ∧
        (j < scanMax counts l b → counts j < counts (scanMax counts l b)) := by
  intro l
  induction l with
  | nil =>
      intro b _ _ h3 j hj
      exact h3 j (by simp) hj
  | cons i l ih =>
      intro b hsort hgt h3 j hj
      have hsort2 : l.Pairwise (· < ·) := (List.pairwise_cons.mp hsort).2
      have hilt : ∀ k ∈ l, i < k := (List.pairwise_cons.mp hsort).1
      have hbi : b < i := hgt i (by simp)
      have hinotl : i ∉ l := fun h => lt_irrefl i (hilt i h)
      by_cases hup : counts b < counts i
      · -- the scan adopts i as the new best
        have hstep : scanMax counts (i :: l) b = scanMax counts l i := by
          simp [scanMax, hup]
        rw [hstep] at hj ⊢
        refine ih i hsort2 hilt ?_ j hj
        intro j2 hj2l hj2i
        by_cases hj2b : j2 = b
        · subst hj2b
          exact ⟨le_of_lt hup, fun _ => hup⟩
        · have hold := h3 j2 (by simp [hj2l, fun h => hj2i h]) hj2b
          -- j2 was outside i :: l: j2 ∉ l and j2 ≠ i
          have hle : counts j2 ≤ counts i := le_trans hold.1 (le_of_lt hup)
          exact ⟨hle, fun _ => lt_of_le_of_lt hold.1 hup⟩
      · -- the scan keeps b
        have hstep : scanMax counts (i :: l) b = scanMax counts l b := by
          simp [scanMax, hup]
        rw [hstep] at hj ⊢
        refine ih b hsort2 (fun k hk => hgt k (by simp [hk])) ?_ j hj
        intro j2 hj2l hj2b
        by_cases hj2i : j2 = i
        · subst hj2i
          refine ⟨le_of_not_lt hup, fun hlt => absurd hlt (not_lt_of_gt hbi)⟩
        · exact h3 j2 (by simp [hj2l, hj2i]) hj2b

/-- Claim C6: for every row of sector counts, the dominant sector computed by
the code (pandas `idxmax` on the tract path, first-maximum dict `max` on the
ZCTA path, both embedded as `dominantCns`) attains the maximum count, and
among sectors tied at the maximum it is the one earliest in the fixed
CNS01..CNS20 enumeration; the computation is a pure function, hence identical
across repeated runs on the same input. -/
theorem dominantCns_first_max (counts : Fin 20 → ℕ) (j : Fin 20) :
    counts j ≤ counts (dominantCns counts) ∧
    (counts j = counts (dominantCns counts) → dominantCns counts ≤ j) := by
  have hsort : laterSectors.Pairwise (· < ·) :=
    List.Pairwise.sublist (List.drop_sublist 1 _) (List.pairwise_lt_finRange 20)
  have hgt : ∀ k ∈ laterSectors, (⟨0, by omega⟩ : Fin 20) < k := by decide
  have hcover : ∀ j2 : Fin 20, j2 ∉ laterSectors → j2 = ⟨0, by omega⟩ := by decide
  have h3 : ∀ j2 : Fin 20, j2 ∉ laterSectors → j2 ≠ (⟨0, by omega⟩ : Fin 20) →
      counts j2 ≤ counts ⟨0, by omega⟩ ∧
      (j2 < (⟨0, by omega⟩ : Fin 20) → counts j2 < counts ⟨0, by omega⟩) := by
    intro j2 hmem hne
    exact absurd (hcover j2 hmem) hne
  by_cases hj : j = dominantCns counts
  · subst hj
    exact ⟨le_refl _, fun _ => le_refl _⟩
  · have h := scanMax_spec counts laterSectors ⟨0, by omega⟩ hsort hgt h3 j hj
    refine ⟨h.1, fun heq => ?_⟩
    by_contra hlt
    push_neg at hlt
    exact absurd heq (ne_of_lt (h.2 hlt))

/-- Witness for C6 at a concrete tie: sectors CNS03 and CNS07 (indices 2 and
6) both hold the maximum count 9; the dominant sector is bounded above by
index 2, the earlier of the two. -/
theorem dominantCns_first_max_witness :
    dominantCns (fun i : Fin 20 => if i.val = 2 ∨ i.val = 6 then 9 else 3) ≤ ⟨2, by omega⟩ :=
  (dominantCns_first_max (fun i : Fin 20 => if i.val = 2 ∨ i.val = 6 then 9 else 3)
    ⟨2, by omega⟩).2 (by decide)

theorem lookupAgg_bump (k : String) (acc : List Row) (r : Row) :
    lookupAgg k (bump acc r) =
      if r.key = k then
        some (match lookupAgg k acc with
          | none => (r.total, r.counts)
          | some (t, c) => (t + r.total, fun s => c s + r.counts s))
      else lookupAgg k acc := by
  induction acc with
  | nil =>
      by_cases h : r.key = k <;> simp [bump, lookupAgg, h]
  | cons g gs ih =>
      by_cases hg : g.key = r.key
      · by_cases hk : r.key = k
        · subst hk
          simp [bump, hg, lookupAgg]
        · have hgk : ¬ g.key = k := by rw [hg]; exact hk
          simp [bump, hg, lookupAgg, hgk, hk]
      · by_cases hgk : g.key = k
        · have hk : ¬ r.key = k := by
            intro h; exact hg (hgk.trans h.symm)
          have hk2 : ¬ k = r.key := fun h => hk h.symm
          simp [bump, hg, lookupAgg, hgk, hk, hk2]
        · simp [bump, hg, lookupAgg, hgk, ih]

theorem lookupAgg_foldl (rows : List Row) :
    ∀ (acc : List Row) (k : String),
      lookupAgg k (rows.foldl bump acc) =
        addInto (lookupAgg k acc) (rows.filter (fun r => r.key = k)) := by
  induction rows with
  | nil => intro acc k; simp [addInto]
  | cons r rs ih =>
      intro acc k
      rw [List.foldl_cons, ih (bump acc r) k]
      by_cases hk : r.key = k
      · rw [List.filter_cons_of_pos (by simpa using hk)]
        rw [lookupAgg_bump, if_pos hk]
        cases h : lookupAgg k acc with
        | none => simp [h, addInto]
        | some tc => cases tc with
          | mk t c => simp [h, addInto]
      · rw [List.filter_cons_of_neg (by simpa using hk)]
        rw [lookupAgg_bump, if_neg hk]

theorem addInto_some (l : List Row) :
    ∀ (t : ℕ) (c : Fin 20 → ℕ),
      addInto (some (t, c)) l =
        some (t + (l.map Row.total).sum,
              fun s => c s + (l.map (fun r => r.counts s)).sum) := by
  induction l with
  | nil =>
      intro t c
      simp [addInto]
  | cons r rs ih =>
      intro t c
      rw [addInto, ih]
      refine congrArg some (Prod.ext ?_ ?_)
      · simp [Nat.add_assoc]
      · funext s
        simp [Nat.add_assoc]

/-- Claim C8: for every input row list and every key, the aggregated entry
for that key (when the key occurs at all) carries, for each sector, exactly
the integer sum of the member raw rows' counts for that sector, and a total
equal to the integer sum of the member rows' reference totals; keys that do
not occur produce no entry.  All arithmetic is exact (ℕ), mirroring pandas
int64 sums. -/
theorem aggregate_exact_sums (rows : List Row) (k : String) :
    lookupAgg k (aggregate rows) =
      if (rows.filter (fun r => r.key = k)).isEmpty then none
      else
        some (((rows.filter (fun r => r.key = k)).map Row.total).sum,
              fun s => ((rows.filter (fun r => r.key = k)).map
                (fun r => r.counts s)).sum) := by
  rw [aggregate, lookupAgg_foldl rows [] k]
  cases h : rows.filter (fun r => r.key = k) with
  | nil => simp [lookupAgg, addInto, h]
  | cons r rs =>
      simp only [lookupAgg, List.isEmpty_cons]
      rw [addInto, addInto_some]
      refine congrArg some (Prod.ext ?_ ?_)
      · simp
      · funext s
        simp

theorem keys_bump (acc : List Row) (r : Row) :
    (bump acc r).map Row.key =
      if r.key ∈ acc.map Row.key then acc.map Row.key
      else acc.map Row.key ++ [r.key] := by
  induction acc with
  | nil => simp [bump]
  | cons g gs ih =>
      by_cases hg : g.key = r.key
      · simp [bump, hg, List.mem_cons]
      · have hne : ¬ r.key = g.key := fun h => hg h.symm
        by_cases hmem : r.key ∈ gs.map Row.key
        · simp [bump, hg, ih, hmem, List.mem_cons, hne]
        · simp [bump, hg, ih, hmem, List.mem_cons, hne]

theorem keys_foldl_mem (rows : List Row) :
    ∀ (acc : List Row) (k : String),
      k ∈ (rows.foldl bump acc).map Row.key ↔
        k ∈ acc.map Row.key ∨ k ∈ rows.map Row.key := by
  induction rows with
  | nil => simp
  | cons r rs ih =>
      intro acc k
      rw [List.foldl_cons, ih (bump acc r) k, keys_bump]
      by_cases hmem : r.key ∈ acc.map Row.key
      · rw [if_pos hmem]
        simp only [List.map_cons, List.mem_cons]
        constructor
        · rintro (h | h)
          · exact Or.inl h
          · exact Or.inr (Or.inr h)
        · rintro (h | h | h)
          · exact Or.inl h
          · exact Or.inl (h ▸ hmem)
          · exact Or.inr h
      · rw [if_neg hmem]
        simp only [List.map_cons, List.mem_cons, List.mem_append,
          List.mem_singleton]
        tauto

theorem keys_foldl_nodup (rows : List Row) :
    ∀ acc : List Row,
      (acc.map Row.key).Nodup → ((rows.foldl bump acc).map Row.key).Nodup := by
  induction rows with
  | nil => intro acc h; simpa using h
  | cons r rs ih =>
      intro acc h
      rw [List.foldl_cons]
      refine ih (bump acc r) ?_
      rw [keys_bump]
      by_cases hmem : r.key ∈ acc.map Row.key
      · simpa [hmem] using h
      · simp [hmem, List.nodup_append, h]

/-- Counterexample to claim C9: a group whose reference total `C000` is 0 but
whose CNS01 count is 3 (the documented source-data quirk where the reference
total and the sector columns diverge) is kept by the aggregator, but its
concentration on the tract path is +inf, not the undefined/null (NaN) value
the claim requires for every zero-total unit. -/
theorem c9_concentration_counterexample :
    (aggregate [⟨"06037000100", 0, fun i => if i.val = 0 then 3 else 0⟩]).map
        concentrationChoropleth = [PFloat.pinf] ∧
      PFloat.pinf ≠ PFloat.nan := by
  constructor
  · decide
  · decide

/-- Claim C9 (amended): the aggregator emits exactly one unit per distinct
group key present in the input (keys are pairwise distinct and a key appears
in the output iff it appears in some input row), and zero-total groups are
not dropped.  The concentration of a zero-total unit is NaN on the tract path
only when its dominant count is also 0 (as holds whenever the ingestion
invariant `total_count = sum(sector_counts)` holds); when a sector count is
positive while the reference total is 0 it is +inf instead.  On the block
path of src/lodes_map.py, which replaces a 0 total by NaN before dividing,
the concentration of a zero-total unit is always NaN. -/
theorem aggregate_units_and_zero_total (rows : List Row) :
    ((aggregate rows).map Row.key).Nodup ∧
    (∀ k, k ∈ (aggregate rows).map Row.key ↔ k ∈ rows.map Row.key) ∧
    (∀ g : Row, g.total = 0 → rowMax g.counts = 0 →
      concentrationChoropleth g = PFloat.nan) ∧
    (∀ g : Row, g.total = 0 → 0 < rowMax g.counts →
      concentrationChoropleth g = PFloat.pinf) ∧
    (∀ dj t : ℕ, t = 0 → sectorConcentrationBlocks dj t = PFloat.nan) := by
  refine ⟨keys_foldl_nodup rows [] (by simp), fun k => ?_, ?_, ?_, ?_⟩
  · rw [aggregate, keys_foldl_mem rows [] k]
    simp
  · intro g h1 h2
    simp [concentrationChoropleth, pdiv, h1, h2]
  · intro g h1 h2
    have : (0 : ℚ) < (rowMax g.counts : ℚ) := by exact_mod_cast h2
    simp [concentrationChoropleth, pdiv, h1, this]
  · intro dj t ht
    simp [sectorConcentrationBlocks, pdiv, ht]

/-- Witness for C9 (amended) at a concrete input: the single zero-total group
is emitted (its key appears in the aggregate) and, with all sector counts 0,
its tract-path concentration is NaN. -/
theorem aggregate_units_and_zero_total_witness :
    "06037000100" ∈
        (aggregate [⟨"06037000100", 0, fun _ => 0⟩]).map Row.key ∧
      concentrationChoropleth ⟨"06037000100", 0, fun _ => 0⟩ = PFloat.nan :=
  ⟨((aggregate_units_and_zero_total
      [⟨"06037000100", 0, fun _ => 0⟩]).2.1 "06037000100").mpr (by decide),
   (aggregate_units_and_zero_total
      [⟨"06037000100", 0, fun _ => 0⟩]).2.2.1
      ⟨"06037000100", 0, fun _ => 0⟩ rfl (by decide)⟩

/-- Counterexample to claim C4: on the tract path, a unit with total count 0
(and sector count 2, reference 5 of 10) has location quotient NaN — an
undefined value propagated into the output — not the 0 the claim requires
when a denominator is 0. -/
theorem c4_tractLq_counterexample :
    tractLq 2 0 5 10 = PFloat.nan ∧ tractLq 2 0 5 10 ≠ PFloat.val 0 := by
  constructor
  · decide
  · decide

/-- Claim C4 (amended): on the ZCTA path the claim holds — the location
quotient property equals (sector_count/total)/(reference_sector/reference_total)
and is 0 whenever the unit total, the reference total, or the reference
sector count is 0.  On the tract path, a unit with total count 0 instead gets
a NaN location quotient (and a 0 reference share yields inf or NaN), so there
the defined-default part of the claim fails. -/
theorem zctaLq_guarded (cns total ccns ctotal : ℕ) :
    (total = 0 → zctaLqProperty cns total ccns ctotal = 0) ∧
    (ctotal = 0 → zctaLqProperty cns total ccns ctotal = 0) ∧
    (ccns = 0 → zctaLqProperty cns total ccns ctotal = 0) ∧
    (0 < total → 0 < ctotal → 0 < ccns →
      zctaLqProperty cns total ccns ctotal =
        ((cns : ℚ) / total) / ((ccns : ℚ) / ctotal)) ∧
    (total = 0 → tractLq cns total ccns ctotal = PFloat.nan) := by
  refine ⟨?_, ?_, ?_, ?_, ?_⟩
  · intro h
    simp [zctaLqProperty, h]
  · intro h
    simp [zctaLqProperty, zctaLq, zctaCountyShare, h]
  · intro h
    simp [zctaLqProperty, zctaLq, zctaCountyShare, h]
  · intro h1 h2 h3
    have hshare : (0 : ℚ) < (ccns : ℚ) / ctotal := by
      apply div_pos
      · exact_mod_cast h3
      · exact_mod_cast h2
    simp [zctaLqProperty, zctaLq, zctaCountyShare, h1, h2, hshare]
  · intro h
    cases hc : tractCountyShare ccns ctotal <;>
      simp [tractLq, tractSectorShare, pdiv, h, hc]

/-- Witness for C4 (amended) at concrete inputs: a zero-total ZCTA exposes
location quotient 0, and a positive case evaluates to the exact share ratio. -/
theorem zctaLq_guarded_witness :
    zctaLqProperty 3 0 5 10 = 0 ∧
    zctaLqProperty 2 4 5 10 = ((2 : ℚ) / 4) / ((5 : ℚ) / 10) :=
  ⟨(zctaLq_guarded 3 0 5 10).1 rfl,
   (zctaLq_guarded 2 4 5 10).2.2.2.1 (by decide) (by decide) (by decide)⟩

theorem bestScan_acc_le (lon lat : ℚ) (keep : ZBounds → Bool) :
    ∀ (l : List (String × ZBounds)) (z0 : String) (d0 : ℚ),
      ∃ q, bestScan lon lat keep l (some (z0, d0)) = some q ∧ q.2 ≤ d0 := by
  intro l
  induction l with
  | nil => intro z0 d0; exact ⟨(z0, d0), rfl, le_refl _⟩
  | cons p rest ih =>
      intro z0 d0
      by_cases hc : (keep p.2 && better (sqDist lon lat p.2) (some (z0, d0))) = true
      · have hlt : sqDist lon lat p.2 < d0 := by
          have := (Bool.and_eq_true _ _).mp hc
          simpa [better] using this.2
        obtain ⟨q, hq, hle⟩ := ih p.1 (sqDist lon lat p.2)
        exact ⟨q, by simpa [bestScan, hc] using hq, le_trans hle (le_of_lt hlt)⟩
      · obtain ⟨q, hq, hle⟩ := ih z0 d0
        exact ⟨q, by simpa [bestScan, hc] using hq, hle⟩

theorem bestScan_mem_le (lon lat : ℚ) (keep : ZBounds → Bool) :
    ∀ (l : List (String × ZBounds)) (best : Option (String × ℚ))
      (p : String × ZBounds), p ∈ l → keep p.2 = true →
      ∃ q, bestScan lon lat keep l best = some q ∧
        q.2 ≤ sqDist lon lat p.2 := by
  intro l
  induction l with
  | nil => intro best p hp; exact absurd hp (List.not_mem_nil p)
  | cons hd rest ih =>
      intro best p hp hkeep
      rcases List.mem_cons.mp hp with hphd | hptl
      · subst hphd
        by_cases hb : better (sqDist lon lat p.2) best = true
        · have hc : (keep p.2 && better (sqDist lon lat p.2) best) = true := by
            rw [hkeep, hb]; rfl
          obtain ⟨q, hq, hle⟩ := bestScan_acc_le lon lat keep rest p.1 (sqDist lon lat p.2)
          exact ⟨q, by simpa [bestScan, hc] using hq, hle⟩
        · match best, hb with
          | some (z0, d0), hb =>
            have hd0 : d0 ≤ sqDist lon lat p.2 := by
              have : ¬ sqDist lon lat p.2 < d0 := by
                simpa [better] using hb
              exact le_of_not_lt this
            have hc : (keep p.2 &&
                better (sqDist lon lat p.2) (some (z0, d0))) = false := by
              rw [Bool.and_eq_false_iff]
              right
              simpa [better] using hb
            obtain ⟨q, hq, hle⟩ := bestScan_acc_le lon lat keep rest z0 d0
            exact ⟨q, by simpa [bestScan, hc] using hq, le_trans hle hd0⟩
      · by_cases hc : (keep hd.2 && better (sqDist lon lat hd.2) best) = true
        · obtain ⟨q, hq, hle⟩ := ih _ p hptl hkeep
          exact ⟨q, by simpa [bestScan, hc] using hq, hle⟩
        · obtain ⟨q, hq, hle⟩ := ih _ p hptl hkeep
          exact ⟨q, by simpa [bestScan, hc] using hq, hle⟩

theorem bestScan_none_or_mem (lon lat : ℚ) (keep : ZBounds → Bool) :
    ∀ (l : List (String × ZBounds)) (best : Option (String × ℚ)),
      bestScan lon lat keep l best = best ∨
      ∃ p ∈ l, keep p.2 = true ∧
        bestScan lon lat keep l best = some (p.1, sqDist lon lat p.2) := by
  intro l
  induction l with
  | nil => intro best; exact Or.inl rfl
  | cons hd rest ih =>
      intro best
      by_cases hc : (keep hd.2 && better (sqDist lon lat hd.2) best) = true
      · have hkeep : keep hd.2 = true := ((Bool.and_eq_true _ _).mp hc).1
        have hstep : bestScan lon lat keep (hd :: rest) best =
            bestScan lon lat keep rest (some (hd.1, sqDist lon lat hd.2)) := by
          simp [bestScan, hc]
        rcases ih (some (hd.1, sqDist lon lat hd.2)) with h | ⟨p, hp, hk, h⟩
        · exact Or.inr ⟨hd, List.mem_cons_self hd rest, hkeep, hstep.trans h⟩
        · exact Or.inr ⟨p, List.mem_cons_of_mem hd hp, hk, hstep.trans h⟩
      · have hstep : bestScan lon lat keep (hd :: rest) best =
            bestScan lon lat keep rest best := by
          simp [bestScan, hc]
        rcases ih best with h | ⟨p, hp, hk, h⟩
        · exact Or.inl (hstep.trans h)
        · exact Or.inr ⟨p, List.mem_cons_of_mem hd hp, hk, hstep.trans h⟩

theorem bestScan_all_false (lon lat : ℚ) (keep : ZBounds → Bool) :
    ∀ (l : List (String × ZBounds)) (best : Option (String × ℚ)),
      (∀ p ∈ l, keep p.2 = false) →
      bestScan lon lat keep l best = best := by
  intro l
  induction l with
  | nil => intro best _; rfl
  | cons hd rest ih =>
      intro best hall
      have hc : (keep hd.2 && better (sqDist lon lat hd.2) best) = false := by
        rw [hall hd (List.mem_cons_self hd rest)]; rfl
      have hstep : bestScan lon lat keep (hd :: rest) best =
          bestScan lon lat keep rest best := by
        simp [bestScan, hc]
      exact hstep.trans (ih best fun p hp => hall p (List.mem_cons_of_mem hd hp))

/-- Full characterisation of `assignTract` on a non-empty ZCTA table with
non-falsy ids: it returns the id of a table entry that is (i) the nearest
center among the entries whose bounding boxes contain the point when at
least one does, and (ii) the nearest center over the whole table otherwise. -/
theorem assignTract_spec (lon lat : ℚ) (zctas : List (String × ZBounds))
    (hne : zctas ≠ []) (hids : ∀ p ∈ zctas, p.1 ≠ "") :
    ∃ z b, (z, b) ∈ zctas ∧ assignTract lon lat zctas = some z ∧
      (if (zctas.filter (fun p => inBbox lon lat p.2)).isEmpty then
        ∀ p ∈ zctas, sqDist lon lat b ≤ sqDist lon lat p.2
      else
        inBbox lon lat b = true ∧
        ∀ p ∈ zctas, inBbox lon lat p.2 = true →
          sqDist lon lat b ≤ sqDist lon lat p.2) := by
  by_cases hC : (zctas.filter (fun p => inBbox lon lat p.2)).isEmpty
  · -- no bounding box contains the point: the fallback pass decides
    have hnil : zctas.filter (fun p => inBbox lon lat p.2) = [] :=
      List.isEmpty_iff.mp hC
    have hallout : ∀ p ∈ zctas, inBbox lon lat p.2 = false := by
      intro p hp
      have := List.filter_eq_nil_iff.mp hnil p hp
      simpa using this
    have hpass1 : bestScan lon lat (inBbox lon lat) zctas none = none :=
      bestScan_all_false lon lat _ zctas none hallout
    obtain ⟨p0, hp0⟩ : ∃ p, p ∈ zctas := by
      cases zctas with
      | nil => exact absurd rfl hne
      | cons a l => exact ⟨a, List.mem_cons_self a l⟩
    obtain ⟨q, hq, _⟩ :=
      bestScan_mem_le lon lat (fun _ => true) zctas none p0 hp0 rfl
    rcases bestScan_none_or_mem lon lat (fun _ => true) zctas none with h | ⟨p, hp, _, h⟩
    · rw [h] at hq; exact absurd hq (by simp)
    · refine ⟨p.1, p.2, by simpa using hp, ?_, ?_⟩
      · have hpz : p.1 ≠ "" := hids p hp
        simp only [assignTract, hpass1, h]
        simp [hpz]
      · rw [if_pos hC]
        intro p2 hp2
        obtain ⟨q2, hq2, hle2⟩ :=
          bestScan_mem_le lon lat (fun _ => true) zctas none p2 hp2 rfl
        rw [h] at hq2
        have : q2 = (p.1, sqDist lon lat p.2) := by
          exact (Option.some_inj.mp hq2).symm
        rw [this] at hle2
        exact hle2
  · -- some bounding box contains the point: the containment pass decides
    have hnonnil : zctas.filter (fun p => inBbox lon lat p.2) ≠ [] := by
      intro h; exact hC (by simp [h])
    obtain ⟨pc, hpc⟩ : ∃ p, p ∈ zctas.filter (fun p => inBbox lon lat p.2) := by
      cases h : zctas.filter (fun p => inBbox lon lat p.2) with
      | nil => exact absurd h hnonnil
      | cons a l => exact ⟨a, h ▸ List.mem_cons_self a l⟩
    have hpcz : pc ∈ zctas := List.mem_of_mem_filter hpc
    have hpcin : inBbox lon lat pc.2 = true := by
      simpa using (List.mem_filter.mp hpc).2
    obtain ⟨q, hq, _⟩ :=
      bestScan_mem_le lon lat (inBbox lon lat) zctas none pc hpcz hpcin
    rcases bestScan_none_or_mem lon lat (inBbox lon lat) zctas none with h | ⟨p, hp, hk, h⟩
    · rw [h] at hq; exact absurd hq (by simp)
    · refine ⟨p.1, p.2, by simpa using hp, ?_, ?_⟩
      · have hpz : p.1 ≠ "" := hids p hp
        simp only [assignTract, h]
        simp [hpz]
      · rw [if_neg hC]
        refine ⟨hk, ?_⟩
        intro p2 hp2 hin2
        obtain ⟨q2, hq2, hle2⟩ :=
          bestScan_mem_le lon lat (inBbox lon lat) zctas none p2 hp2 hin2
        rw [h] at hq2
        have : q2 = (p.1, sqDist lon lat p.2) :=
          (Option.some_inj.mp hq2).symm
        rw [this] at hle2
        exact hle2

/-- Claim C5: every tract centroid is assigned by the rule of the approximate
spatial join — when exactly one ZCTA bounding box contains the centroid the
tract goes to that ZCTA; when several contain it, to a containing ZCTA whose
center is nearest by squared Euclidean distance in (lon, lat); when none
contains it, to a ZCTA with the overall nearest center regardless of
containment.  Stated for a non-empty ZCTA table whose ids are well-formed
(non-empty strings, as ZCTA5 ids are). -/
theorem c5_spatial_assignment_rule (lon lat : ℚ) (zctas : List (String × ZBounds))
    (hne : zctas ≠ []) (hids : ∀ p ∈ zctas, p.1 ≠ "") :
    ∃ z b, (z, b) ∈ zctas ∧ assignTract lon lat zctas = some z ∧
      (∀ z1 b1, zctas.filter (fun p => inBbox lon lat p.2) = [(z1, b1)] →
        z = z1) ∧
      (zctas.filter (fun p => inBbox lon lat p.2) ≠ [] →
        inBbox lon lat b = true ∧
        ∀ p ∈ zctas, inBbox lon lat p.2 = true →
          sqDist lon lat b ≤ sqDist lon lat p.2) ∧
      (zctas.filter (fun p => inBbox lon lat p.2) = [] →
        ∀ p ∈ zctas, sqDist lon lat b ≤ sqDist lon lat p.2) := by
  obtain ⟨z, b, hmem, hassign, hcases⟩ := assignTract_spec lon lat zctas hne hids
  refine ⟨z, b, hmem, hassign, ?_, ?_, ?_⟩
  · intro z1 b1 hsingle
    have hnotempty : ¬ (zctas.filter (fun p => inBbox lon lat p.2)).isEmpty = true := by
      simp [hsingle]
    rw [if_neg hnotempty] at hcases
    have hzb : (z, b) ∈ zctas.filter (fun p => inBbox lon lat p.2) :=
      List.mem_filter.mpr ⟨hmem, by simpa using hcases.1⟩
    rw [hsingle] at hzb
    have := List.mem_singleton.mp hzb
    exact (Prod.ext_iff.mp this).1
  · intro hnonnil
    rw [if_neg (by simpa [List.isEmpty_iff] using hnonnil)] at hcases
    exact hcases
  · intro hnil
    rw [if_pos (by simpa [List.isEmpty_iff] using hnil)] at hcases
    exact hcases

/-- Witness for C5 at a concrete input: the centroid (1/2, 1/2) lies in both
ZCTA bounding boxes; the theorem applies with both hypotheses discharged. -/
theorem c5_spatial_assignment_rule_witness :
    ∃ z b,
      (z, b) ∈ [("90001", (⟨0, 1, 0, 1, 1, 1⟩ : ZBounds)),
                ("90002", (⟨0, 2, 0, 2, 1/4, 1/4⟩ : ZBounds))] ∧
      assignTract (1/2) (1/2)
          [("90001", (⟨0, 1, 0, 1, 1, 1⟩ : ZBounds)),
           ("90002", (⟨0, 2, 0, 2, 1/4, 1/4⟩ : ZBounds))] = some z ∧
      (∀ z1 b1,
        ([("90001", (⟨0, 1, 0, 1, 1, 1⟩ : ZBounds)),
          ("90002", (⟨0, 2, 0, 2, 1/4, 1/4⟩ : ZBounds))].filter
            (fun p => inBbox (1/2) (1/2) p.2)) = [(z1, b1)] → z = z1) ∧
      (([("90001", (⟨0, 1, 0, 1, 1, 1⟩ : ZBounds)),
         ("90002", (⟨0, 2, 0, 2, 1/4, 1/4⟩ : ZBounds))].filter
           (fun p => inBbox (1/2) (1/2) p.2)) ≠ [] →
        inBbox (1/2) (1/2) b = true ∧
        ∀ p ∈ [("90001", (⟨0, 1, 0, 1, 1, 1⟩ : ZBounds)),
               ("90002", (⟨0, 2, 0, 2, 1/4, 1/4⟩ : ZBounds))],
          inBbox (1/2) (1/2) p.2 = true →
          sqDist (1/2) (1/2) b ≤ sqDist (1/2) (1/2) p.2) ∧
      (([("90001", (⟨0, 1, 0, 1, 1, 1⟩ : ZBounds)),
         ("90002", (⟨0, 2, 0, 2, 1/4, 1/4⟩ : ZBounds))].filter
           (fun p => inBbox (1/2) (1/2) p.2)) = [] →
        ∀ p ∈ [("90001", (⟨0, 1, 0, 1, 1, 1⟩ : ZBounds)),
               ("90002", (⟨0, 2, 0, 2, 1/4, 1/4⟩ : ZBounds))],
          sqDist (1/2) (1/2) b ≤ sqDist (1/2) (1/2) p.2) :=
  c5_spatial_assignment_rule (1/2) (1/2)
    [("90001", (⟨0, 1, 0, 1, 1, 1⟩ : ZBounds)),
     ("90002", (⟨0, 2, 0, 2, 1/4, 1/4⟩ : ZBounds))]
    (by decide) (by decide)

theorem addTotal_sum (z : String) (v : ℕ) :
    ∀ acc : List (String × ℕ),
      ((addTotal z v acc).map Prod.snd).sum = (acc.map Prod.snd).sum + v := by
  intro acc
  induction acc with
  | nil => simp [addTotal]
  | cons p rest ih =>
      obtain ⟨z2, w⟩ := p
      by_cases h : z2 = z
      · simp [addTotal, h]
        omega
      · simp [addTotal, h, ih]
        omega

theorem zctaAccumulate_sum_aux (field : String → Option ℕ) :
    ∀ (assignments : List (String × String)) (acc : List (String × ℕ)),
      ((assignments.foldl
        (fun acc p =>
          match field p.1 with
          | some v => addTotal p.2 v acc
          | none => acc) acc).map Prod.snd).sum =
      (acc.map Prod.snd).sum +
        (assignments.filterMap (fun p => field p.1)).sum := by
  intro assignments
  induction assignments with
  | nil => intro acc; simp
  | cons p rest ih =>
      intro acc
      rw [List.foldl_cons]
      cases h : field p.1 with
      | none => rw [ih]; simp [List.filterMap_cons, h]
      | some v =>
          rw [ih, addTotal_sum]
          simp [List.filterMap_cons, h]
          omega

/-- Claim C10: provided the ZCTA table is non-empty (some boundary yielded
vertices) with well-formed non-empty ids and the tract centroid table has
pairwise-distinct tract ids, every tract centroid is assigned to exactly one
ZCTA, and the accumulated ZCTA aggregates conserve any numeric field: the sum
of the field over all ZCTA entries equals the sum of the field over the
assigned tracts present in the tract data table — no tract counted twice or
into two ZCTAs.  (`field` instantiates to `total_jobs` and to each of the 20
CNS columns.) -/
theorem c10_unique_assignment_and_conservation
    (centroids : List (String × ℚ × ℚ)) (zctas : List (String × ZBounds))
    (field : String → Option ℕ)
    (hnd : (centroids.map Prod.fst).Nodup)
    (hne : zctas ≠ []) (hids : ∀ p ∈ zctas, p.1 ≠ "") :
    (∀ c ∈ centroids, ∃! z, (c.1, z) ∈ tractToZcta centroids zctas) ∧
    ((zctaAccumulate (tractToZcta centroids zctas) field).map Prod.snd).sum =
      ((tractToZcta centroids zctas).filterMap (fun p => field p.1)).sum := by
  constructor
  · intro c hc
    obtain ⟨z, b, hmem, hassign, _⟩ :=
      assignTract_spec c.2.1 c.2.2 zctas hne hids
    refine ⟨z, ?_, ?_⟩
    · exact List.mem_filterMap.mpr ⟨c, hc, by rw [hassign]; rfl⟩
    · intro z2 hz2
      obtain ⟨a, ha, hfa⟩ := List.mem_filterMap.mp hz2
      cases hopt : assignTract a.2.1 a.2.2 zctas with
      | none => rw [hopt] at hfa; exact absurd hfa (by simp)
      | some z3 =>
          rw [hopt] at hfa
          have hz3 : (a.1, z3) = (c.1, z2) := by simpa using hfa
          have ha1 : a.1 = c.1 := (Prod.ext_iff.mp hz3).1
          have hz32 : z3 = z2 := (Prod.ext_iff.mp hz3).2
          have hac : a = c := List.inj_on_of_nodup_map hnd ha hc ha1
          rw [hac] at hopt
          rw [hopt] at hassign
          rw [← hz32]
          exact Option.some_inj.mp hassign
  · have h := zctaAccumulate_sum_aux field (tractToZcta centroids zctas) []
    simpa [zctaAccumulate] using h

/-- Witness for C10 at a concrete input: two tracts, one ZCTA table;
the theorem applies with all three hypotheses discharged. -/

theorem c10_unique_assignment_and_conservation_witness :
    (∀ c ∈ [("06037000100", ((1 : ℚ)/2, (1 : ℚ)/2)),
            ("06037000200", ((3 : ℚ)/2, (1 : ℚ)/2))],
      ∃! z, (c.1, z) ∈
        tractToZcta
          [("06037000100", ((1 : ℚ)/2, (1 : ℚ)/2)),
           ("06037000200", ((3 : ℚ)/2, (1 : ℚ)/2))]
          [("90001", (⟨0, 1, 0, 1, 1, 1⟩ : ZBounds))]) ∧
    ((zctaAccumulate
        (tractToZcta
          [("06037000100", ((1 : ℚ)/2, (1 : ℚ)/2)),
           ("06037000200", ((3 : ℚ)/2, (1 : ℚ)/2))]
          [("90001", (⟨0, 1, 0, 1, 1, 1⟩ : ZBounds))])
        (fun t => if t = "06037000100" then some 7 else none)).map
          Prod.snd).sum =
      ((tractToZcta
          [("06037000100", ((1 : ℚ)/2, (1 : ℚ)/2)),
           ("06037000200", ((3 : ℚ)/2, (1 : ℚ)/2))]
          [("90001", (⟨0, 1, 0, 1, 1, 1⟩ : ZBounds))]).filterMap
        (fun p => (fun t => if t = "06037000100" then some 7 else none) p.1)).sum :=
  c10_unique_assignment_and_conservation
    [("06037000100", ((1 : ℚ)/2, (1 : ℚ)/2)),
     ("06037000200", ((3 : ℚ)/2, (1 : ℚ)/2))]
    [("90001", (⟨0, 1, 0, 1, 1, 1⟩ : ZBounds))]
    (fun t => if t = "06037000100" then some 7 else none)
    (by decide) (by decide) (by decide)

/-- Counterexample to claim C1: a run in which the authoritative crosswalk is
available (cached) and non-empty — it maps tract 06037000100 to 99999 — yet
the resolver's output is the approximate spatial-join result mapping the
tract to 90001, not the crosswalk. -/
theorem c1_crosswalk_counterexample :
    download_zcta_crosswalk (some [("06037000100", "99999")]) =
        some [("06037000100", "99999")] ∧
      [("06037000100", "99999")] ≠ ([] : List (String × String)) ∧
      resolverRun (some [("06037000100", "99999")])
          [("06037000100", ((0 : ℚ), (0 : ℚ)))]
          [("90001", (⟨0, 1, 0, 1, 1, 1⟩ : ZBounds))] =
        [("06037000100", "90001")] ∧
      [("06037000100", "90001")] ≠ [("06037000100", "99999")] := by
  refine ⟨rfl, by decide, ?_, by decide⟩
  have hassign : assignTract (0 : ℚ) (0 : ℚ)
      [("90001", (⟨0, 1, 0, 1, 1, 1⟩ : ZBounds))] = some "90001" := by
    norm_num [assignTract, bestScan, inBbox, better]
    exact fun h => absurd h (by decide)
  simp [resolverRun, tractToZcta, List.filterMap_cons, hassign]

/-- Claim C1 (amended): the pipeline never consults the crosswalk — for every
run the resolver's output is the approximate spatial-join table, identical
whatever crosswalk cache is present; consequently provenances are never mixed
only because the authoritative provenance never occurs at all. -/
theorem c1_resolver_ignores_crosswalk
    (cache1 cache2 : Option (List (String × String)))
    (centroids : List (String × ℚ × ℚ)) (zctas : List (String × ZBounds)) :
    resolverRun cache1 centroids zctas = resolverRun cache2 centroids zctas ∧
    resolverRun cache1 centroids zctas = tractToZcta centroids zctas :=
  ⟨rfl, rfl⟩

theorem lookupProp_any_false (k : String) :
    ∀ ps : Props, ps.any (fun p => decide (p.1 = k)) = false →
      lookupProp k ps = none := by
  intro ps
  induction ps with
  | nil => intro _; rfl
  | cons p rest ih =>
      intro h
      rw [List.any_cons, Bool.or_eq_false_iff] at h
      have hp : ¬ p.1 = k := of_decide_eq_false h.1
      simp [lookupProp, hp, ih h.2]

theorem lookupProp_append (k : String) (qs : Props) :
    ∀ ps : Props,
      lookupProp k (ps ++ qs) =
        match lookupProp k ps with
        | some v => some v
        | none => lookupProp k qs := by
  intro ps
  induction ps with
  | nil => simp [lookupProp]
  | cons p rest ih =>
      by_cases hp : p.1 = k
      · simp [lookupProp, hp]
      · simp [lookupProp, hp, ih]

theorem lookupProp_map_set (k : String) (v : PropVal) :
    ∀ ps : Props, ps.any (fun p => decide (p.1 = k)) = true →
      lookupProp k (ps.map (fun p => if p.1 = k then (k, v) else p)) = some v := by
  intro ps
  induction ps with
  | nil => intro h; simp at h
  | cons p rest ih =>
      intro h
      by_cases hp : p.1 = k
      · simp [lookupProp, hp]
      · rw [List.any_cons] at h
        have : rest.any (fun p => decide (p.1 = k)) = true := by
          rcases Bool.or_eq_true_iff.mp h with h1 | h2
          · exact absurd (of_decide_eq_true h1) hp
          · exact h2
        simp [lookupProp, hp, ih this]

theorem lookupProp_map_other (k k2 : String) (v : PropVal) (hne : k2 ≠ k) :
    ∀ ps : Props,
      lookupProp k2 (ps.map (fun p => if p.1 = k then (k, v) else p)) =
        lookupProp k2 ps := by
  intro ps
  induction ps with
  | nil => rfl
  | cons p rest ih =>
      by_cases hp : p.1 = k
      · have h1 : ¬ k = k2 := fun h => hne h.symm
        have h2 : ¬ p.1 = k2 := by rw [hp]; exact h1
        simp [lookupProp, hp, h1, h2, ih]
      · simp [lookupProp, hp, ih]

theorem lookupProp_setProp_self (ps : Props) (k : String) (v : PropVal) :
    lookupProp k (setProp ps k v) = some v := by
  unfold setProp
  by_cases h : ps.any (fun p => decide (p.1 = k)) = true
  · rw [if_pos h]
    exact lookupProp_map_set k v ps h
  · rw [if_neg h]
    rw [lookupProp_append]
    rw [lookupProp_any_false k ps (Bool.eq_false_iff.mpr h)]
    simp [lookupProp]

theorem lookupProp_setProp_other (ps : Props) (k k2 : String) (v : PropVal)
    (hne : k2 ≠ k) :
    lookupProp k2 (setProp ps k v) = lookupProp k2 ps := by
  unfold setProp
  by_cases h : ps.any (fun p => decide (p.1 = k)) = true
  · rw [if_pos h]
    exact lookupProp_map_other k k2 v hne ps
  · rw [if_neg h]
    rw [lookupProp_append]
    cases hl : lookupProp k2 ps with
    | some w => rfl
    | none =>
        have : ¬ k = k2 := fun hk => hne hk.symm
        simp [lookupProp, this]

theorem lookupProp_setProp_ne_none (ps : Props) (k k2 : String) (v : PropVal)
    (h : lookupProp k2 ps ≠ none) :
    lookupProp k2 (setProp ps k v) ≠ none := by
  by_cases hk : k2 = k
  · subst hk
    rw [lookupProp_setProp_self]
    simp
  · rw [lookupProp_setProp_other ps k k2 v hk]
    exact h

theorem foldl_sectorStep_preserves (d : TractData) :
    ∀ (l : List (Fin 20)) (ps : Props) (k : String),
      lookupProp k ps ≠ none →
      lookupProp k (l.foldl (sectorStep d) ps) ≠ none := by
  intro l
  induction l with
  | nil => intro ps k h; exact h
  | cons i rest ih =>
      intro ps k h
      rw [List.foldl_cons]
      refine ih (sectorStep d ps i) k ?_
      exact lookupProp_setProp_ne_none _ _ _ _
        (lookupProp_setProp_ne_none _ _ _ _ h)

theorem foldl_sectorStep_mem (d : TractData) :
    ∀ (l : List (Fin 20)) (ps : Props) (i : Fin 20), i ∈ l →
      lookupProp (sectorName i ++ "_jobs") (l.foldl (sectorStep d) ps) ≠ none ∧
      lookupProp (sectorName i ++ "_lq") (l.foldl (sectorStep d) ps) ≠ none := by
  intro l
  induction l with
  | nil => intro ps i h; exact absurd h (List.not_mem_nil i)
  | cons j rest ih =>
      intro ps i h
      rw [List.foldl_cons]
      rcases List.mem_cons.mp h with hij | hmem
      · subst hij
        constructor
        · refine foldl_sectorStep_preserves d rest _ _ ?_
          refine lookupProp_setProp_ne_none _ _ _ _ ?_
          rw [lookupProp_setProp_self]
          simp
        · refine foldl_sectorStep_preserves d rest _ _ ?_
          rw [sectorStep, lookupProp_setProp_self]
          simp
      · exact ih (sectorStep d ps j) i hmem

/-- Counterexample to claim C2: an unmatched boundary feature (no unit with
its tract id in the lookup) ends the merge without the per-sector keys — here
`Agriculture_jobs`, a key of the fixed metric schema, is absent — so its
property set is partial, contradicting the claim that every feature carries
every schema key. -/
theorem c2_unmatched_counterexample :
    "Agriculture_jobs" ∈ schemaKeys ∧
    lookupProp "Agriculture_jobs"
      (mergeTractFeature (fun _ => none) "06037000100"
        [("GEOID", PropVal.str "06037000100")]) = none := by
  constructor
  · decide
  · decide

/-- Claim C2 (amended): after the boundary merge, a matched feature carries a
defined value for every key of the fixed metric schema (total, dominant
sector, color, concentration, and per-sector jobs and location quotient for
all 20 sectors); an unmatched feature carries defined values for the four
default keys only, and a per-sector key absent before the merge is still
absent after it — unmatched features end with a partial property set. -/
theorem c2_merge_schema (lookup : String → Option TractData) (geoid : String)
    (ps : Props) :
    (∀ d, lookup (tidOf geoid) = some d →
      ∀ k ∈ schemaKeys,
        lookupProp k (mergeTractFeature lookup geoid ps) ≠ none) ∧
    (lookup (tidOf geoid) = none →
      (∀ k ∈ baseKeys,
        lookupProp k (mergeTractFeature lookup geoid ps) ≠ none) ∧
      (∀ i : Fin 20,
        lookupProp (sectorName i ++ "_jobs") ps = none →
        lookupProp (sectorName i ++ "_jobs")
          (mergeTractFeature lookup geoid ps) = none)) := by
  constructor
  · intro d hd k hk
    have hmerge : mergeTractFeature lookup geoid ps =
        setSectorProps d
          (setProp (setProp (setProp (setProp ps
            "total_jobs" (.int d.total_jobs))
            "dominant_sector" (.str d.dominant_sector))
            "sector_color" (.str d.sector_color))
            "concentration" (.num d.concentration)) := by
      rw [mergeTractFeature, hd]
    rw [hmerge]
    rcases List.mem_append.mp hk with hb | hs
    · have hbase : lookupProp k
          (setProp (setProp (setProp (setProp ps
            "total_jobs" (.int d.total_jobs))
            "dominant_sector" (.str d.dominant_sector))
            "sector_color" (.str d.sector_color))
            "concentration" (.num d.concentration)) ≠ none := by
        simp only [baseKeys, List.mem_cons, List.not_mem_nil, or_false] at hb
        rcases hb with h | h | h | h <;> subst h
        · refine lookupProp_setProp_ne_none _ _ _ _ ?_
          refine lookupProp_setProp_ne_none _ _ _ _ ?_
          refine lookupProp_setProp_ne_none _ _ _ _ ?_
          rw [lookupProp_setProp_self]; simp
        · refine lookupProp_setProp_ne_none _ _ _ _ ?_
          refine lookupProp_setProp_ne_none _ _ _ _ ?_
          rw [lookupProp_setProp_self]; simp
        · refine lookupProp_setProp_ne_none _ _ _ _ ?_
          rw [lookupProp_setProp_self]; simp
        · rw [lookupProp_setProp_self]; simp
      exact foldl_sectorStep_preserves d (List.finRange 20) _ k hbase
    · obtain ⟨i, _, hki⟩ := List.mem_flatMap.mp hs
      rcases List.mem_cons.mp hki with hkj | hkl
      · subst hkj
        exact (foldl_sectorStep_mem d (List.finRange 20) _ i
          (List.mem_finRange i)).1
      · rcases List.mem_singleton.mp hkl with hkj
        subst hkj
        exact (foldl_sectorStep_mem d (List.finRange 20) _ i
          (List.mem_finRange i)).2
  · intro hd
    have hmerge : mergeTractFeature lookup geoid ps =
        setProp (setProp (setProp (setProp ps
          "total_jobs" (.int 0))
          "dominant_sector" (.str "None"))
          "sector_color" (.str "#333"))
          "concentration" (.int 0) := by
      rw [mergeTractFeature, hd]
    constructor
    · intro k hk
      rw [hmerge]
      simp only [baseKeys, List.mem_cons, List.not_mem_nil, or_false] at hk
      rcases hk with h | h | h | h <;> subst h
      · refine lookupProp_setProp_ne_none _ _ _ _ ?_
        refine lookupProp_setProp_ne_none _ _ _ _ ?_
        refine lookupProp_setProp_ne_none _ _ _ _ ?_
        rw [lookupProp_setProp_self]; simp
      · refine lookupProp_setProp_ne_none _ _ _ _ ?_
        refine lookupProp_setProp_ne_none _ _ _ _ ?_
        rw [lookupProp_setProp_self]; simp
      · refine lookupProp_setProp_ne_none _ _ _ _ ?_
        rw [lookupProp_setProp_self]; simp
      · rw [lookupProp_setProp_self]; simp
    · have hdist : ∀ j : Fin 20, sectorName j ++ "_jobs" ≠ "total_jobs" ∧
          sectorName j ++ "_jobs" ≠ "dominant_sector" ∧
          sectorName j ++ "_jobs" ≠ "sector_color" ∧
          sectorName j ++ "_jobs" ≠ "concentration" := by decide
      intro i hi
      have hdistinct := hdist i
      rw [hmerge,
        lookupProp_setProp_other _ _ _ _ hdistinct.2.2.2,
        lookupProp_setProp_other _ _ _ _ hdistinct.2.2.1,
        lookupProp_setProp_other _ _ _ _ hdistinct.2.1,
        lookupProp_setProp_other _ _ _ _ hdistinct.1]
      exact hi

/-- Witness for C2 (amended) at a concrete matched feature: the merged
properties contain the `Agriculture_jobs` schema key. -/
theorem c2_merge_schema_witness :
    lookupProp "Agriculture_jobs"
      (mergeTractFeature
        (fun _ => some ⟨120, "Healthcare", "#2ecc71", PFloat.val 1,
          fun _ => 6, fun _ => PFloat.val 1⟩)
        "060370001001" [("GEOID", PropVal.str "060370001001")]) ≠ none :=
  (c2_merge_schema
    (fun _ => some ⟨120, "Healthcare", "#2ecc71", PFloat.val 1,
      fun _ => 6, fun _ => PFloat.val 1⟩)
    "060370001001" [("GEOID", PropVal.str "060370001001")]).1
    ⟨120, "Healthcare", "#2ecc71", PFloat.val 1, fun _ => 6, fun _ => PFloat.val 1⟩
    rfl "Agriculture_jobs" (by decide)

/-- Counterexample to claim C3: in `get_block_coordinates` the same block
with the same tract centroid and the same seed-42 stream receives different
coordinates in two datasets that differ only in an extra leading row — the
jitter is positional, not a function of the block id. -/
theorem c3_positional_jitter_counterexample :
    getBlockCoordinates (fun i => (i : ℚ)) (fun _ => some (34, -118))
        [("060371234567890", "06037123456")] =
      [("060371234567890", some (34, -117))] ∧
    getBlockCoordinates (fun i => (i : ℚ)) (fun _ => some (34, -118))
        [("060370000000001", "06037123456"),
         ("060371234567890", "06037123456")] =
      [("060370000000001", some (34, -116)),
       ("060371234567890", some (35, -115))] ∧
    some ((34 : ℚ), (-117 : ℚ)) ≠ some ((35 : ℚ), (-115 : ℚ)) := by
  refine ⟨?_, ?_, by norm_num⟩
  · norm_num [getBlockCoordinates, List.enum]
  · norm_num [getBlockCoordinates, List.enum]

/-- Claim C3 (amended): in `download_block_centroids` the seed is
`hash(block) % 2^32`, so within one process (one `pyHash`) the point
produced for a block with a given tract centroid is a fixed value,
independent of which other blocks are present or of their order; across two
separate runs the guarantee fails because Python's salted string hash (and
hence the seed) differs per process, and in `get_block_coordinates` it fails
even within a run because jitter is assigned by row position from one global
seed-42 stream. -/
theorem downloadBlockCentroids_pointwise (pyHash : String → ℕ)
    (draw : ℕ → ℚ × ℚ) (cent : String → Option (ℚ × ℚ)) (b tr : String)
    (c : ℚ × ℚ) (hc : cent tr = some c) :
    ∀ blocks : List (String × String), (b, tr) ∈ blocks →
      (b, c.1 + (draw (pyHash b % 2 ^ 32)).1,
        c.2 + (draw (pyHash b % 2 ^ 32)).2) ∈
        downloadBlockCentroids pyHash draw cent blocks := by
  intro blocks hmem
  exact List.mem_filterMap.mpr ⟨(b, tr), hmem, by rw [hc]; rfl⟩

/-- Witness for C3 (amended) at a concrete block list. -/
theorem downloadBlockCentroids_pointwise_witness :
    ("060371234567890", (1 : ℚ) + 0, (2 : ℚ) + 0) ∈
      downloadBlockCentroids (fun _ => 5) (fun _ => (0, 0))
        (fun _ => some (1, 2)) [("060371234567890", "06037123456")] :=
  downloadBlockCentroids_pointwise (fun _ => 5) (fun _ => (0, 0))
    (fun _ => some (1, 2)) "060371234567890" "06037123456" (1, 2) rfl
    [("060371234567890", "06037123456")] (by simp)

/-- Counterexample to claim C7: for the two-part MultiPolygon `c7mp`, the
bounds the spatial join actually uses (over all parts' vertices) have
max longitude 6, while bounds computed from the largest part only (the
3-vertex part near the origin) would have max longitude 1 — so the join's
bounding box is not computed from the largest part. -/
theorem c7_multipart_counterexample :
    (zctaBoundsOfMP c7mp).map ZBounds.maxLon = some 6 ∧
    (boundsOf (largestPartExterior c7mp)).map ZBounds.maxLon = some 1 ∧
    zctaBoundsOfMP c7mp ≠ boundsOf (largestPartExterior c7mp) := by
  refine ⟨?_, ?_, ?_⟩
  · decide
  · decide
  · intro h
    have h6 : (zctaBoundsOfMP c7mp).map ZBounds.maxLon = some 6 := by decide
    have h1 : (boundsOf (largestPartExterior c7mp)).map ZBounds.maxLon =
        some 1 := by decide
    rw [h, h1] at h6
    exact absurd (Option.some_inj.mp h6) (by norm_num)

theorem foldMin_le (x : ℚ) :
    ∀ l : List ℚ, foldMin x l ≤ x ∧ ∀ y ∈ l, foldMin x l ≤ y := by
  intro l
  induction l generalizing x with
  | nil => exact ⟨le_refl x, by simp⟩
  | cons y l ih =>
      have h := ih (min x y)
      refine ⟨le_trans h.1 (min_le_left x y), ?_⟩
      intro z hz
      rcases List.mem_cons.mp hz with hzy | hzl
      · subst hzy
        exact le_trans h.1 (min_le_right x z)
      · exact h.2 z hzl

theorem foldMin_mem (x : ℚ) :
    ∀ l : List ℚ, foldMin x l = x ∨ foldMin x l ∈ l := by
  intro l
  induction l generalizing x with
  | nil => exact Or.inl rfl
  | cons y l ih =>
      rcases ih (min x y) with h | h
      · rcases min_choice x y with hc | hc
        · exact Or.inl (by rw [foldMin, List.foldl_cons] at *; rw [h, hc])
        · refine Or.inr ?_
          rw [foldMin, List.foldl_cons]
          rw [show (List.foldl min (min x y) l = y) from h.trans hc]
          exact List.mem_cons_self y l
      · refine Or.inr (List.mem_cons_of_mem y ?_)
        rw [foldMin, List.foldl_cons]
        exact h

theorem foldMax_le (x : ℚ) :
    ∀ l : List ℚ, x ≤ foldMax x l ∧ ∀ y ∈ l, y ≤ foldMax x l := by
  intro l
  induction l generalizing x with
  | nil => exact ⟨le_refl x, by simp⟩
  | cons y l ih =>
      have h := ih (max x y)
      refine ⟨le_trans (le_max_left x y) h.1, ?_⟩
      intro z hz
      rcases List.mem_cons.mp hz with hzy | hzl
      · subst hzy
        exact le_trans (le_max_right x z) h.1
      · exact h.2 z hzl

theorem foldMax_mem (x : ℚ) :
    ∀ l : List ℚ, foldMax x l = x ∨ foldMax x l ∈ l := by
  intro l
  induction l generalizing x with
  | nil => exact Or.inl rfl
  | cons y l ih =>
      rcases ih (max x y) with h | h
      · rcases max_choice x y with hc | hc
        · exact Or.inl (by rw [foldMax, List.foldl_cons] at *; rw [h, hc])
        · refine Or.inr ?_
          rw [foldMax, List.foldl_cons]
          rw [show (List.foldl max (max x y) l = y) from h.trans hc]
          exact List.mem_cons_self y l
      · refine Or.inr (List.mem_cons_of_mem y ?_)
        rw [foldMax, List.foldl_cons]
        exact h

/-- Claim C7 (amended): for a MultiPolygon ZCTA feature with at least one
vertex, the bounding box and vertex-mean center the spatial join uses are
computed over the union of ALL parts' vertices (every ring of every part):
the box bounds every vertex of every part and is attained by vertices of
the union, and the center is the arithmetic mean of the whole union.  It is
the finer (tract) centroid, not the ZCTA bounds, that uses only the largest
part's exterior ring. -/
theorem c7_zcta_bounds_all_parts (mp : List (List (List (ℚ × ℚ))))
    (hne : allVerts mp ≠ []) :
    ∃ b, zctaBoundsOfMP mp = some b ∧
      (∀ v ∈ allVerts mp,
        b.minLon ≤ v.1 ∧ v.1 ≤ b.maxLon ∧ b.minLat ≤ v.2 ∧ v.2 ≤ b.maxLat) ∧
      (∃ v1 ∈ allVerts mp, v1.1 = b.minLon) ∧
      (∃ v2 ∈ allVerts mp, v2.1 = b.maxLon) ∧
      (∃ v3 ∈ allVerts mp, v3.2 = b.minLat) ∧
      (∃ v4 ∈ allVerts mp, v4.2 = b.maxLat) ∧
      b.cLon = ((allVerts mp).map Prod.fst).sum / (allVerts mp).length ∧
      b.cLat = ((allVerts mp).map Prod.snd).sum / (allVerts mp).length := by
  cases h : allVerts mp with
  | nil => exact absurd h hne
  | cons p rest =>
      refine ⟨⟨foldMin p.1 (rest.map Prod.fst), foldMax p.1 (rest.map Prod.fst),
        foldMin p.2 (rest.map Prod.snd), foldMax p.2 (rest.map Prod.snd),
        ((p :: rest).map Prod.fst).sum / (p :: rest).length,
        ((p :: rest).map Prod.snd).sum / (p :: rest).length⟩,
        by rw [zctaBoundsOfMP, h]; rfl, ?_, ?_, ?_, ?_, ?_, rfl, rfl⟩
      · intro v hv
        rcases List.mem_cons.mp hv with hvp | hvr
        · subst hvp
          exact ⟨(foldMin_le v.1 (rest.map Prod.fst)).1,
            (foldMax_le v.1 (rest.map Prod.fst)).1,
            (foldMin_le v.2 (rest.map Prod.snd)).1,
            (foldMax_le v.2 (rest.map Prod.snd)).1⟩
        · exact ⟨(foldMin_le p.1 (rest.map Prod.fst)).2 v.1
              (List.mem_map_of_mem Prod.fst hvr),
            (foldMax_le p.1 (rest.map Prod.fst)).2 v.1
              (List.mem_map_of_mem Prod.fst hvr),
            (foldMin_le p.2 (rest.map Prod.snd)).2 v.2
              (List.mem_map_of_mem Prod.snd hvr),
            (foldMax_le p.2 (rest.map Prod.snd)).2 v.2
              (List.mem_map_of_mem Prod.snd hvr)⟩
      · rcases foldMin_mem p.1 (rest.map Prod.fst) with hm | hm
        · exact ⟨p, List.mem_cons_self p rest, hm.symm⟩
        · obtain ⟨v, hv, hveq⟩ := List.mem_map.mp hm
          exact ⟨v, List.mem_cons_of_mem p hv, hveq⟩
      · rcases foldMax_mem p.1 (rest.map Prod.fst) with hm | hm
        · exact ⟨p, List.mem_cons_self p rest, hm.symm⟩
        · obtain ⟨v, hv, hveq⟩ := List.mem_map.mp hm
          exact ⟨v, List.mem_cons_of_mem p hv, hveq⟩
      · rcases foldMin_mem p.2 (rest.map Prod.snd) with hm | hm
        · exact ⟨p, List.mem_cons_self p rest, hm.symm⟩
        · obtain ⟨v, hv, hveq⟩ := List.mem_map.mp hm
          exact ⟨v, List.mem_cons_of_mem p hv, hveq⟩
      · rcases foldMax_mem p.2 (rest.map Prod.snd) with hm | hm
        · exact ⟨p, List.mem_cons_self p rest, hm.symm⟩
        · obtain ⟨v, hv, hveq⟩ := List.mem_map.mp hm
          exact ⟨v, List.mem_cons_of_mem p hv, hveq⟩

/-- Witness for C7 (amended) at a concrete one-part MultiPolygon. -/
theorem c7_zcta_bounds_all_parts_witness :
    ∃ b, zctaBoundsOfMP [[[((0 : ℚ), (0 : ℚ)), (2, 2)]]] = some b ∧
      (∀ v ∈ allVerts [[[((0 : ℚ), (0 : ℚ)), (2, 2)]]],
        b.minLon ≤ v.1 ∧ v.1 ≤ b.maxLon ∧ b.minLat ≤ v.2 ∧ v.2 ≤ b.maxLat) ∧
      (∃ v1 ∈ allVerts [[[((0 : ℚ), (0 : ℚ)), (2, 2)]]], v1.1 = b.minLon) ∧
      (∃ v2 ∈ allVerts [[[((0 : ℚ), (0 : ℚ)), (2, 2)]]], v2.1 = b.maxLon) ∧
      (∃ v3 ∈ allVerts [[[((0 : ℚ), (0 : ℚ)), (2, 2)]]], v3.2 = b.minLat) ∧
      (∃ v4 ∈ allVerts [[[((0 : ℚ), (0 : ℚ)), (2, 2)]]], v4.2 = b.maxLat) ∧
      b.cLon = ((allVerts [[[((0 : ℚ), (0 : ℚ)), (2, 2)]]]).map Prod.fst).sum /
        (allVerts [[[((0 : ℚ), (0 : ℚ)), (2, 2)]]]).length ∧
      b.cLat = ((allVerts [[[((0 : ℚ), (0 : ℚ)), (2, 2)]]]).map Prod.snd).sum /
        (allVerts [[[((0 : ℚ), (0 : ℚ)), (2, 2)]]]).length :=
  c7_zcta_bounds_all_parts [[[((0 : ℚ), (0 : ℚ)), (2, 2)]]] (by decide)
